import Mathlib

/-!
Verification of the ThermoBatch Renamer core: the staged queue state machine
of the main application component and the archive assembler of
utils/zipUtils.ts.  JavaScript strings are embedded as lists of characters,
the File objects handed in by the browser as records of the fields the core
reads, and each handler of the component as a function on an explicit
application state.
-/

namespace ThermoBatch

/-- Strings of the embedded program are lists of characters. -/
abbrev Str := List Char

/-! ### Decimal rendering: Number.prototype.toString and String.prototype.padStart -/

/-- Decimal digit character for a value below ten. -/
def digitChar : Nat → Char
  | 0 => '0' | 1 => '1' | 2 => '2' | 3 => '3' | 4 => '4'
  | 5 => '5' | 6 => '6' | 7 => '7' | 8 => '8' | 9 => '9'
  | _ => '*'

/-- Numeric value of a decimal digit character. -/
def digitVal : Char → Nat
  | '0' => 0 | '1' => 1 | '2' => 2 | '3' => 3 | '4' => 4
  | '5' => 5 | '6' => 6 | '7' => 7 | '8' => 8 | '9' => 9
  | _ => 0

/-- Fuel-driven decimal rendering loop; with fuel above the number it writes
the usual base-ten digits in front of the accumulator. -/
def repr10F : Nat → Nat → Str → Str
  | 0, _, acc => acc
  | fuel + 1, n, acc =>
    if n < 10 then digitChar n :: acc
    else repr10F fuel (n / 10) (digitChar (n % 10) :: acc)

/-- Decimal rendering of a natural number, as JavaScript toString produces it. -/
def repr10 (n : Nat) : Str := repr10F (n + 1) n []

/-- JavaScript padStart: left-pad with the given character up to the width. -/
def padStart (w : Nat) (c : Char) (s : Str) : Str :=
  List.replicate (w - s.length) c ++ s

/-- Sequence rendering of the source: toString followed by padStart(3, zero). -/
def pad3 (n : Nat) : Str := padStart 3 '0' (repr10 n)

/-- Decimal decoding loop, used to settle injectivity of the rendering. -/
def decodeAux (acc : Nat) : Str → Nat
  | [] => acc
  | c :: rest => decodeAux (acc * 10 + digitVal c) rest

/-- Decimal decoding of a digit string. -/
def decode10 (s : Str) : Nat := decodeAux 0 s

/-! ### getExtension and its JavaScript index arithmetic -/

/-- Largest index of a dot in the string, or minus one when there is none;
this is the value lastIndexOf returns in the source. -/
def lastDotIdx : Str → Int
  | [] => -1
  | c :: rest =>
    if 0 ≤ lastDotIdx rest then lastDotIdx rest + 1
    else if c = '.' then 0 else -1

/-- The unsigned 32-bit coercion performed by the JavaScript operator written
as a double shift by zero. -/
def uint32 (x : Int) : Nat := (x % (2 ^ 32 : Int)).toNat

/-- Embedding of the getExtension helper of the source: slice the file name
from the index (lastIndexOf dot minus one, coerced to 32-bit unsigned) plus
two. -/
def getExtension (filename : Str) : Str :=
  filename.drop (uint32 (lastDotIdx filename - 1) + 2)

/-- Characters after the last dot of the string, when the string has a dot
anywhere at all. -/
def afterLastDot : Str → Option Str
  | [] => none
  | c :: rest =>
    match afterLastDot rest with
    | some s => some s
    | none => if c = '.' then some rest else none

/-- Modelled from the spec: the extension is the substring after the final
dot, and empty when the name has no dot.  This is the comparison point for
the extension claim, not a function of the source. -/
def specExtension (filename : Str) : Str := (afterLastDot filename).getD []

/-! ### Input files and the image-type check -/

/-- The fields of a browser File object the core reads: name, media type and
the relative path supplied by directory selection. -/
structure JsFile where
  name : Str
  mimeType : Str
  relativePath : Str
deriving DecidableEq, Repr

/-- Media types the source accepts directly. -/
def validTypes : List Str :=
  ["image/jpeg".toList, "image/png".toList, "image/jpg".toList, "image/webp".toList]

/-- Extensions matched by the case-insensitive fallback pattern of the
source. -/
def imageExts : List Str :=
  [".jpg".toList, ".jpeg".toList, ".png".toList, ".webp".toList]

/-- Lower-casing a string character by character, the effect of the
case-insensitive flag of the fallback pattern on its ASCII alternatives. -/
def lowerStr (s : Str) : Str := s.map Char.toLower

/-- Embedding of isImageFile: accept on media type, or on a file name whose
lower-cased form ends in one of the accepted extensions. -/
def isImageFile (f : JsFile) : Bool :=
  validTypes.contains f.mimeType ||
    imageExts.any (fun e => e.isSuffixOf (lowerStr f.name))

/-- Splitting a path on the slash character, as the source splits the
relative path. -/
def splitSlash : Str → List Str
  | [] => [[]]
  | c :: rest =>
    match splitSlash rest with
    | [] => [[c]]
    | h :: t => if c = '/' then [] :: h :: t else (c :: h) :: t

/-- Folder name derivation of processFiles: the next-to-last path part when
the relative path has more than one part, the sentinel Root otherwise. -/
def folderNameOf (f : JsFile) : Str :=
  let parts := splitSlash f.relativePath
  if parts.length > 1 then parts.getD (parts.length - 2) [] else "Root".toList

/-! ### Work items and application state -/

/-- Item status values of the source. -/
inductive Status where
  | idle | processing | success | error
deriving DecidableEq, Repr

/-- Embedding of the FileQueueItem interface of types.ts.  Optional fields
of the interface are Option values. -/
structure FileQueueItem where
  id : Str
  file : JsFile
  originalName : Str
  folderName : Str
  stage : Nat
  status : Status
  temperature : Option Str := none
  newName : Option Str := none
  previewName : Option Str := none
deriving DecidableEq, Repr

/-- State of the component: the queue plus the four configuration values. -/
structure AppState where
  queue : List FileQueueItem
  prefixStr : Str
  startIndex : Nat
  filterSuffix : Str
  onlyFilter : Bool
deriving DecidableEq, Repr

/-- Composition of a preview name in the recomputation effect: the prefix,
the padded sequence number, a dot, and the extension. -/
def mkName (pre : Str) (n : Nat) (ext : Str) : Str := pre ++ pad3 n ++ '.' :: ext

/-- Loop of the preview-recomputation effect: walk the queue, give every
stage-one item a preview name at the current cursor and advance the local
cursor, leave every other item alone. -/
def recomputeAux (pre : Str) (cur : Nat) : List FileQueueItem → List FileQueueItem
  | [] => []
  | item :: rest =>
    if item.stage = 1 then
      { item with
          previewName := some (mkName pre cur (getExtension item.originalName)) } ::
        recomputeAux pre (cur + 1) rest
    else item :: recomputeAux pre cur rest

/-- Embedding of the preview-recomputation effect: map the queue with a
local cursor starting at startIndex; configuration is read, never written. -/
def recomputePreviews (s : AppState) : AppState :=
  { s with queue := recomputeAux s.prefixStr s.startIndex s.queue }

/-- Item construction inside processFiles for one accepted image file; the
id is whatever the id generator produced for this position. -/
def mkItem (idv : Str) (f : JsFile) : FileQueueItem :=
  { id := idv
    file := f
    originalName := f.name
    folderName := folderNameOf f
    stage := 1
    status := .idle }

/-- The newItems array of processFiles: one item per image file, ids drawn
from the generator by position. -/
def newItemsOf (gen : Nat → Str) (files : List JsFile) : List FileQueueItem :=
  ((files.filter isImageFile).enum).map (fun p => mkItem (gen p.1) p.2)

/-- The filteredFiles array of processFiles: when the folder filter is on,
keep only items whose folder name ends with the filter suffix. -/
def acceptedItems (gen : Nat → Str) (s : AppState) (files : List JsFile) :
    List FileQueueItem :=
  if s.onlyFilter then
    (newItemsOf gen files).filter
      (fun f => s.filterSuffix.isSuffixOf f.folderName)
  else newItemsOf gen files

/-- Embedding of processFiles: reject non-image files; when no image file
remains but the input was non-empty, alert and return unchanged; otherwise
append the filter-surviving new items at the end of the queue.  The alert
raised when the folder filter drops every item does not return early. -/
def processFiles (gen : Nat → Str) (files : List JsFile) (s : AppState) : AppState :=
  let imageFiles := files.filter isImageFile
  if imageFiles.isEmpty && !files.isEmpty then s
  else { s with queue := s.queue ++ acceptedItems gen s files }

/-- Embedding of moveToStage2.  The confirmation dialog is a boolean handed
in by the caller; declined means no change.  Confirmed: every stage-one item
gets its preview name locked into newName and moves to stage two, and the
start index advances by the number of stage-one items of the queue. -/
def moveToStage2 (confirmed : Bool) (s : AppState) : AppState :=
  if !confirmed then s
  else
    { s with
      queue := s.queue.map (fun item =>
        if item.stage = 1 then
          { item with stage := 2, newName := item.previewName, status := .idle }
        else item)
      startIndex :=
        s.startIndex + (s.queue.filter (fun i => i.stage = 1)).length }

/-- JavaScript truthiness of an optional string: absent and empty are both
falsy. -/
def jsTruthy : Option Str → Bool
  | none => false
  | some s => !s.isEmpty

/-- The incompleteness check of moveToStage3: some stage-two item has a
falsy temperature. -/
def hasIncomplete (q : List FileQueueItem) : Bool :=
  q.any (fun i => i.stage = 2 && !jsTruthy i.temperature)

/-- Embedding of moveToStage3.  When some stage-two item lacks a temperature
the caller is asked; declined means no change.  Otherwise every stage-two
item moves to stage three and nothing else changes. -/
def moveToStage3 (confirmProceed : Bool) (s : AppState) : AppState :=
  if hasIncomplete s.queue && !confirmProceed then s
  else
    { s with queue := s.queue.map (fun item =>
        if item.stage = 2 then { item with stage := 3 } else item) }

/-- Embedding of updateTemperature: set the temperature of the item with the
given id and derive its status from truthiness of the value. -/
def updateTemperature (idv value : Str) (s : AppState) : AppState :=
  { s with queue := s.queue.map (fun item =>
      if item.id = idv then
        { item with temperature := some value
                    status := if value.isEmpty then .idle else .success }
      else item) }

/-- Embedding of removeItem: drop the item with the given id. -/
def removeItem (idv : Str) (s : AppState) : AppState :=
  { s with queue := s.queue.filter (fun item => item.id ≠ idv) }

/-- The operations a user can trigger on the state, including the
configuration edits and the recomputation effect they schedule. -/
inductive Op where
  | recompute
  | ingest (gen : Nat → Str) (files : List JsFile)
  | commitRename (confirmed : Bool)
  | commitExport (confirmProceed : Bool)
  | setTemp (idv value : Str)
  | removeIt (idv : Str)
  | setPrefixStr (p : Str)
  | setStart (n : Nat)
  | setFilterSuffix (sfx : Str)
  | setOnlyFilter (b : Bool)

/-- Applying one operation to the state. -/
def applyOp : Op → AppState → AppState
  | .recompute, s => recomputePreviews s
  | .ingest gen files, s => processFiles gen files s
  | .commitRename c, s => moveToStage2 c s
  | .commitExport c, s => moveToStage3 c s
  | .setTemp i v, s => updateTemperature i v s
  | .removeIt i, s => removeItem i s
  | .setPrefixStr p, s => { s with prefixStr := p }
  | .setStart n, s => { s with startIndex := n }
  | .setFilterSuffix sfx, s => { s with filterSuffix := sfx }
  | .setOnlyFilter b, s => { s with onlyFilter := b }

/-- The per-stage view each column renders: a filter of the one backing
queue. -/
def stageView (n : Nat) (q : List FileQueueItem) : List FileQueueItem :=
  q.filter (fun i => i.stage = n)

/-! ### Archive assembler of utils/zipUtils.ts -/

/-- Header row of the manifest. -/
def csvHeader : Str := "Original Name,New Name,Folder,Temperature\n".toList

/-- Quoting of one manifest field. -/
def quoteField (s : Str) : Str := '"' :: s ++ ['"']

/-- The temperature field: the value, or the literal token when the value is
falsy. -/
def safeTemp : Option Str → Str
  | none => "N/A".toList
  | some t => if t.isEmpty then "N/A".toList else t

/-- One manifest row for an item stored under the name n: four quoted
comma-separated fields and a newline. -/
def csvRow (item : FileQueueItem) (n : Str) : Str :=
  quoteField item.originalName ++ ',' ::
    (quoteField n ++ ',' ::
      (quoteField item.folderName ++ ',' ::
        (quoteField (safeTemp item.temperature) ++ ['\n'])))

/-- The assembled archive: the per-item entries in insertion order, plus the
manifest entry with its fixed name and its text. -/
structure ZipPackage where
  entries : List (Str × JsFile)
  manifestName : Str
  manifestContent : Str
deriving DecidableEq, Repr

/-- Loop body of generateZipPackage: a truthy newName adds a zip entry under
that name and appends one manifest row; otherwise the item is skipped. -/
def zipStep (acc : List (Str × JsFile) × Str) (item : FileQueueItem) :
    List (Str × JsFile) × Str :=
  match item.newName with
  | some n =>
    if n.isEmpty then acc
    else (acc.1 ++ [(n, item.file)], acc.2 ++ csvRow item n)
  | none => acc

/-- Embedding of generateZipPackage: fold the loop body over the items
starting from no entries and the header, then add the manifest entry. -/
def generateZipPackage (processedFiles : List FileQueueItem) : ZipPackage :=
  let r := processedFiles.foldl zipStep ([], csvHeader)
  { entries := r.1
    manifestName := "data_summary.csv".toList
    manifestContent := r.2 }

/-- Zip entry contributed by one item, when it contributes one. -/
def entryOf (item : FileQueueItem) : Option (Str × JsFile) :=
  match item.newName with
  | some n => if n.isEmpty then none else some (n, item.file)
  | none => none

/-- Manifest body rows derived from a run of items. -/
def rowsOf (items : List FileQueueItem) : Str :=
  ((items.filter (fun it => jsTruthy it.newName)).map
    (fun it => csvRow it (it.newName.getD []))).flatten

/-! ### Lemmas on the decimal rendering -/

theorem repr10F_append (fuel : Nat) : ∀ (n : Nat) (acc : Str), n < fuel →
    repr10F fuel n acc = repr10F fuel n [] ++ acc := by
  induction fuel with
  | zero => intro n acc h; omega
  | succ fuel ih =>
    intro n acc h
    by_cases h10 : n < 10
    · simp [repr10F, h10]
    · have hd : n / 10 < fuel := by
        have := Nat.div_lt_self (by omega : 0 < n) (by omega : 1 < 10)
        omega
      simp only [repr10F, if_neg h10]
      rw [ih (n / 10) _ hd, ih (n / 10) [digitChar (n % 10)] hd]
      simp

theorem digitVal_digitChar (d : Nat) (h : d < 10) : digitVal (digitChar d) = d := by
  interval_cases d <;> rfl

theorem digitChar_ne_dot (d : Nat) (h : d < 10) : digitChar d ≠ '.' := by
  interval_cases d <;> decide

theorem decodeAux_append (l1 l2 : Str) : ∀ a : Nat,
    decodeAux a (l1 ++ l2) = decodeAux (decodeAux a l1) l2 := by
  induction l1 with
  | nil => intro a; rfl
  | cons c rest ih => intro a; simp [decodeAux, ih]

theorem decodeAux_repr10F (fuel : Nat) : ∀ (n a : Nat), n < fuel →
    decodeAux a (repr10F fuel n []) =
      a * 10 ^ (repr10F fuel n []).length + n := by
  induction fuel with
  | zero => intro n a h; omega
  | succ fuel ih =>
    intro n a h
    by_cases h10 : n < 10
    · simp [repr10F, h10, decodeAux, digitVal_digitChar n h10]
    · have hd : n / 10 < fuel := by
        have := Nat.div_lt_self (by omega : 0 < n) (by omega : 1 < 10)
        omega
      simp only [repr10F, if_neg h10]
      rw [repr10F_append fuel (n / 10) _ hd, decodeAux_append,
        ih (n / 10) a hd]
      have hv : digitVal (digitChar (n % 10)) = n % 10 :=
        digitVal_digitChar _ (Nat.mod_lt n (by omega))
      have hm : 10 * (n / 10) + n % 10 = n := Nat.div_add_mod n 10
      simp only [decodeAux, hv, List.length_append, List.length_cons,
        List.length_nil]
      have hr : (a * 10 ^ (repr10F fuel (n / 10) []).length + n / 10) * 10 +
          n % 10 =
          a * (10 ^ (repr10F fuel (n / 10) []).length * 10) +
            (10 * (n / 10) + n % 10) := by ring
      rw [hr, hm, ← pow_succ]

theorem decode10_repr10 (n : Nat) : decode10 (repr10 n) = n := by
  have h := decodeAux_repr10F (n + 1) n 0 (Nat.lt_succ_self n)
  simpa [decode10, repr10] using h

theorem decodeAux_replicate_zero (k : Nat) (s : Str) :
    decodeAux 0 (List.replicate k '0' ++ s) = decodeAux 0 s := by
  induction k with
  | zero => simp
  | succ k ih => simpa [List.replicate_succ, decodeAux] using ih

theorem decode10_pad3 (n : Nat) : decode10 (pad3 n) = n := by
  rw [pad3, padStart, decode10, decodeAux_replicate_zero]
  exact decode10_repr10 n

theorem pad3_inj (a b : Nat) (h : pad3 a = pad3 b) : a = b := by
  have := decode10_pad3 a
  rw [h, decode10_pad3 b] at this
  omega

theorem dot_not_mem_repr10F (fuel : Nat) : ∀ (n : Nat) (acc : Str),
    n < fuel → '.' ∉ acc → '.' ∉ repr10F fuel n acc := by
  induction fuel with
  | zero => intro n acc h _; omega
  | succ fuel ih =>
    intro n acc h hacc
    by_cases h10 : n < 10
    · simp only [repr10F, if_pos h10, List.mem_cons]
      rintro (hc | hc)
      · exact digitChar_ne_dot n h10 hc.symm
      · exact hacc hc
    · have hd : n / 10 < fuel := by
        have := Nat.div_lt_self (by omega : 0 < n) (by omega : 1 < 10)
        omega
      simp only [repr10F, if_neg h10]
      refine ih (n / 10) _ hd ?_
      simp only [List.mem_cons]
      rintro (hc | hc)
      · exact digitChar_ne_dot _ (Nat.mod_lt n (by omega)) hc.symm
      · exact hacc hc

theorem dot_not_mem_pad3 (n : Nat) : '.' ∉ pad3 n := by
  rw [pad3, padStart]
  intro hmem
  rcases List.mem_append.mp hmem with hmem | hmem
  · have := List.eq_of_mem_replicate hmem
    simp at this
  · exact dot_not_mem_repr10F (n + 1) n [] (Nat.lt_succ_self n) (by simp) hmem

theorem noDot_split : ∀ (a b x y : Str), '.' ∉ a → '.' ∉ b →
    a ++ '.' :: x = b ++ '.' :: y → a = b ∧ x = y := by
  intro a
  induction a with
  | nil =>
    intro b x y _ hb h
    cases b with
    | nil => simpa using h
    | cons d bs =>
      simp only [List.nil_append, List.cons_append, List.cons.injEq] at h
      exact absurd (List.mem_cons_self d bs) (h.1 ▸ hb)
  | cons c as ih =>
    intro b x y ha hb h
    cases b with
    | nil =>
      simp only [List.cons_append, List.nil_append, List.cons.injEq] at h
      exact absurd (List.mem_cons_self c as) (h.1 ▸ ha)
    | cons d bs =>
      simp only [List.cons_append, List.cons.injEq] at h
      have ha2 : '.' ∉ as := fun hm => ha (List.mem_cons_of_mem c hm)
      have hb2 : '.' ∉ bs := fun hm => hb (List.mem_cons_of_mem d hm)
      have := ih bs x y ha2 hb2 h.2
      exact ⟨by rw [h.1, this.1], this.2⟩

theorem mkName_inj (p e1 e2 : Str) (a b : Nat)
    (h : mkName p a e1 = mkName p b e2) : a = b ∧ e1 = e2 := by
  rw [mkName, mkName, List.append_assoc, List.append_assoc] at h
  have h2 := List.append_cancel_left h
  have h3 := noDot_split (pad3 a) (pad3 b) e1 e2
    (dot_not_mem_pad3 a) (dot_not_mem_pad3 b) h2
  exact ⟨pad3_inj a b h3.1, h3.2⟩

/-! ### Lemmas on extension extraction -/

theorem lastDotIdx_spec (f : Str) :
    (lastDotIdx f = -1 ∧ afterLastDot f = none) ∨
    (∃ k : Nat, lastDotIdx f = (k : Int) ∧ k < f.length ∧
      afterLastDot f = some (f.drop (k + 1))) := by
  induction f with
  | nil => exact Or.inl ⟨rfl, rfl⟩
  | cons c rest ih =>
    rcases ih with ⟨h1, h2⟩ | ⟨k, h1, hk, h2⟩
    · by_cases hc : c = '.'
      · refine Or.inr ⟨0, ?_, by simp, ?_⟩
        · simp [lastDotIdx, h1, hc]
        · simp [afterLastDot, h2, hc]
      · refine Or.inl ⟨?_, ?_⟩
        · simp [lastDotIdx, h1, hc]
        · simp [afterLastDot, h2, hc]
    · refine Or.inr ⟨k + 1, ?_, by simpa using Nat.succ_lt_succ hk, ?_⟩
      · have hge : (0 : Int) ≤ (k : Int) := Int.natCast_nonneg k
        simp only [lastDotIdx, h1, if_pos hge]
        push_cast
        ring
      · simp [afterLastDot, h2]

theorem dot_not_mem_of_afterLastDot_none :
    ∀ f : Str, afterLastDot f = none → '.' ∉ f := by
  intro f
  induction f with
  | nil => intro _ h; simp at h
  | cons c rest ih =>
    intro h
    simp only [afterLastDot] at h
    cases hrest : afterLastDot rest with
    | some s => rw [hrest] at h; simp at h
    | none =>
      rw [hrest] at h
      by_cases hc : c = '.'
      · rw [if_pos hc] at h; simp at h
      · simp only [List.mem_cons]
        rintro (he | he)
        · exact hc he.symm
        · exact ih hrest he

theorem dot_not_mem_of_afterLastDot_some :
    ∀ (f s : Str), afterLastDot f = some s → '.' ∉ s := by
  intro f
  induction f with
  | nil => intro s h; simp [afterLastDot] at h
  | cons c rest ih =>
    intro s h
    simp only [afterLastDot] at h
    cases hrest : afterLastDot rest with
    | some s2 =>
      rw [hrest] at h
      simp only [Option.some.injEq] at h
      exact h ▸ ih s2 hrest
    | none =>
      rw [hrest] at h
      by_cases hc : c = '.'
      · rw [if_pos hc] at h
        have hs : s = rest := by simpa using h.symm
        exact hs ▸ dot_not_mem_of_afterLastDot_none rest hrest
      · rw [if_neg hc] at h; simp at h

theorem uint32_of_nonneg (x : Int) (h0 : 0 ≤ x) (h32 : x < 2 ^ 32) :
    (uint32 x : Int) = x := by
  rw [uint32, Int.emod_eq_of_lt h0 (by exact_mod_cast h32)]
  exact Int.toNat_of_nonneg h0

theorem getExtension_cases (f : Str) (hlen : f.length ≤ 2 ^ 32) :
    (lastDotIdx f < 1 ∧ getExtension f = []) ∨
    (1 ≤ lastDotIdx f ∧ getExtension f = specExtension f) := by
  rcases lastDotIdx_spec f with ⟨h1, _⟩ | ⟨k, h1, hk, h2⟩
  · refine Or.inl ⟨by rw [h1]; decide, ?_⟩
    rw [getExtension, h1]
    have : uint32 (-1 - 1) + 2 = 2 ^ 32 := by decide
    rw [this]
    exact List.drop_eq_nil_of_le (le_trans hlen (le_refl _))
  · by_cases hk1 : 1 ≤ k
    · refine Or.inr ⟨by rw [h1]; exact_mod_cast hk1, ?_⟩
      rw [getExtension, h1, specExtension, h2]
      have hnn : (0 : Int) ≤ (k : Int) - 1 := by
        have : (1 : Int) ≤ (k : Int) := by exact_mod_cast hk1
        omega
      have hlt : (k : Int) - 1 < 2 ^ 32 := by
        have : (k : Int) < 2 ^ 32 := by
          have : k < 2 ^ 32 := lt_of_lt_of_le hk hlen
          exact_mod_cast this
        omega
      have hu : (uint32 ((k : Int) - 1) : Int) = (k : Int) - 1 :=
        uint32_of_nonneg _ hnn hlt
      have hu2 : uint32 ((k : Int) - 1) + 2 = k + 1 := by omega
      rw [hu2, Option.getD_some]
    · have hk0 : k = 0 := by omega
      subst hk0
      refine Or.inl ⟨by rw [h1]; decide, ?_⟩
      rw [getExtension, h1]
      simp only [Nat.cast_zero]
      have : uint32 ((0 : Int) - 1) + 2 = 2 ^ 32 + 1 := by decide
      rw [this]
      exact List.drop_eq_nil_of_le (le_trans hlen (by omega))

theorem dot_not_mem_getExtension (f : Str) (hlen : f.length ≤ 2 ^ 32) :
    '.' ∉ getExtension f := by
  rcases getExtension_cases f hlen with ⟨_, he⟩ | ⟨_, he⟩
  · rw [he]; simp
  · rw [he, specExtension]
    cases h : afterLastDot f with
    | none => simp
    | some s =>
      rw [Option.getD_some]
      exact dot_not_mem_of_afterLastDot_some f s h

/-! ### Lemmas on the preview recomputation -/

/-- Names the recomputation hands out from a cursor to a run of
extensions. -/
def namesFrom (pre : Str) : Nat → List Str → List Str
  | _, [] => []
  | c, e :: es => mkName pre c e :: namesFrom pre (c + 1) es

/-- Extensions of the stage-one items of a queue, in order. -/
def extsOf (q : List FileQueueItem) : List Str :=
  (q.filter (fun x => x.stage = 1)).map (fun x => getExtension x.originalName)

theorem recomputeAux_length (pre : Str) : ∀ (q : List FileQueueItem) (c : Nat),
    (recomputeAux pre c q).length = q.length := by
  intro q
  induction q with
  | nil => intro c; rfl
  | cons x rest ih =>
    intro c
    by_cases hx : x.stage = 1 <;> simp [recomputeAux, hx, ih]

theorem recomputeAux_getElem? (pre : Str) : ∀ (q : List FileQueueItem) (c i : Nat),
    (recomputeAux pre c q)[i]? = (q[i]?).map (fun x =>
      if x.stage = 1 then
        { x with previewName := some (mkName pre
            (c + ((q.take i).filter (fun y => y.stage = 1)).length)
            (getExtension x.originalName)) }
      else x) := by
  intro q
  induction q with
  | nil => intro c i; simp [recomputeAux]
  | cons x rest ih =>
    intro c i
    cases i with
    | zero =>
      by_cases hx : x.stage = 1 <;> simp [recomputeAux, hx]
    | succ i =>
      by_cases hx : x.stage = 1
      · simp only [recomputeAux, if_pos hx, List.getElem?_cons_succ,
          List.take_succ_cons]
        rw [ih (c + 1) i,
          List.filter_cons_of_pos (by simpa using hx), List.length_cons]
        have harith : ∀ L : Nat, c + 1 + L = c + (L + 1) := by omega
        simp only [harith]
      · simp only [recomputeAux, if_neg hx, List.getElem?_cons_succ,
          List.take_succ_cons]
        rw [ih c i, List.filter_cons_of_neg (by simpa using hx)]

theorem recomputeAux_idem (pre : Str) : ∀ (q : List FileQueueItem) (c : Nat),
    recomputeAux pre c (recomputeAux pre c q) = recomputeAux pre c q := by
  intro q
  induction q with
  | nil => intro c; rfl
  | cons x rest ih =>
    intro c
    by_cases hx : x.stage = 1
    · simp [recomputeAux, hx, ih]
    · simp [recomputeAux, hx, ih]

theorem recomputeAux_map_id (pre : Str) : ∀ (q : List FileQueueItem) (c : Nat),
    (recomputeAux pre c q).map (fun x => x.id) = q.map (fun x => x.id) := by
  intro q
  induction q with
  | nil => intro c; rfl
  | cons x rest ih =>
    intro c
    by_cases hx : x.stage = 1 <;> simp [recomputeAux, hx, ih]

theorem recomputeAux_mem_of_ne (pre : Str) :
    ∀ (q : List FileQueueItem) (c : Nat) (x : FileQueueItem),
    x ∈ q → x.stage ≠ 1 → x ∈ recomputeAux pre c q := by
  intro q
  induction q with
  | nil => intro c x hx _; simp at hx
  | cons y rest ih =>
    intro c x hx hs
    rcases List.mem_cons.mp hx with hx | hx
    · subst hx
      simp [recomputeAux, hs]
    · by_cases hy : y.stage = 1
      · simp only [recomputeAux, if_pos hy, List.mem_cons]
        exact Or.inr (ih (c + 1) x hx hs)
      · simp only [recomputeAux, if_neg hy, List.mem_cons]
        exact Or.inr (ih c x hx hs)

theorem stage1Previews_recomputeAux (pre : Str) :
    ∀ (q : List FileQueueItem) (c : Nat),
    ((recomputeAux pre c q).filter (fun x => x.stage = 1)).map
        (fun x => x.previewName) =
      (namesFrom pre c (extsOf q)).map some := by
  intro q
  induction q with
  | nil => intro c; simp [recomputeAux, extsOf, namesFrom]
  | cons x rest ih =>
    intro c
    by_cases hx : x.stage = 1
    · have hstep : recomputeAux pre c (x :: rest) =
          { x with
              previewName := some (mkName pre c (getExtension x.originalName)) } ::
            recomputeAux pre (c + 1) rest := by
        simp [recomputeAux, hx]
      have hx2 : ({ x with
          previewName := some (mkName pre c (getExtension x.originalName)) } :
          FileQueueItem).stage = 1 := hx
      rw [hstep, List.filter_cons_of_pos (by simpa using hx2)]
      have hexts : extsOf (x :: rest) =
          getExtension x.originalName :: extsOf rest := by
        simp [extsOf, List.filter_cons, hx]
      rw [hexts]
      simp only [namesFrom, List.map_cons, ih (c + 1)]
    · have hstep : recomputeAux pre c (x :: rest) =
          x :: recomputeAux pre c rest := by
        simp [recomputeAux, hx]
      rw [hstep, List.filter_cons_of_neg (by simpa using hx)]
      have hexts : extsOf (x :: rest) = extsOf rest := by
        simp [extsOf, List.filter_cons, hx]
      rw [hexts]
      exact ih c

theorem namesFrom_mem (pre : Str) : ∀ (es : List Str) (c : Nat) (name : Str),
    name ∈ namesFrom pre c es → ∃ (n : Nat) (e : Str), c ≤ n ∧
      name = mkName pre n e := by
  intro es
  induction es with
  | nil => intro c name h; simp [namesFrom] at h
  | cons e es ih =>
    intro c name h
    rcases List.mem_cons.mp h with h | h
    · exact ⟨c, e, le_refl c, h⟩
    · obtain ⟨n, e2, hn, he⟩ := ih (c + 1) name h
      exact ⟨n, e2, by omega, he⟩

theorem namesFrom_pairwise (pre : Str) : ∀ (es : List Str) (c : Nat),
    (namesFrom pre c es).Pairwise (fun a b => a ≠ b) := by
  intro es
  induction es with
  | nil => intro c; simp [namesFrom]
  | cons e es ih =>
    intro c
    refine List.Pairwise.cons ?_ (ih (c + 1))
    intro b hb heq
    obtain ⟨n, e2, hn, hbe⟩ := namesFrom_mem pre es (c + 1) b hb
    rw [hbe] at heq
    have := (mkName_inj pre e e2 c n heq).1
    omega

/-! ### Lemmas on ingestion -/

theorem processFiles_queue (gen : Nat → Str) (files : List JsFile)
    (s : AppState) :
    (processFiles gen files s).queue = s.queue ++ acceptedItems gen s files := by
  rw [processFiles]
  by_cases h : (files.filter isImageFile).isEmpty && !files.isEmpty
  · rw [if_pos h]
    have himg : files.filter isImageFile = [] := by
      have := (Bool.and_eq_true _ _).mp h
      exact List.isEmpty_iff.mp this.1
    have hacc : acceptedItems gen s files = [] := by
      rw [acceptedItems, newItemsOf, himg]
      cases s.onlyFilter <;> simp
    rw [hacc, List.append_nil]
  · rw [if_neg h]

/-! ### Lemmas on archive assembly -/

theorem foldl_zipStep : ∀ (items : List FileQueueItem)
    (e0 : List (Str × JsFile)) (c0 : Str),
    items.foldl zipStep (e0, c0) =
      (e0 ++ items.filterMap entryOf, c0 ++ rowsOf items) := by
  intro items
  induction items with
  | nil => intro e0 c0; simp [rowsOf]
  | cons it rest ih =>
    intro e0 c0
    rw [List.foldl_cons]
    cases hn : it.newName with
    | none =>
      simp [zipStep, hn, ih, entryOf, rowsOf, jsTruthy]
    | some n =>
      by_cases hne : n.isEmpty
      · simp [zipStep, hn, hne, ih, entryOf, rowsOf, jsTruthy]
      · simp [zipStep, hn, hne, ih, entryOf, rowsOf, jsTruthy,
          List.append_assoc]

theorem generateZipPackage_eq (items : List FileQueueItem) :
    generateZipPackage items =
      { entries := items.filterMap entryOf
        manifestName := "data_summary.csv".toList
        manifestContent := csvHeader ++ rowsOf items } := by
  rw [generateZipPackage, foldl_zipStep]
  simp

/-! ### Identifier bookkeeping across the operations -/

theorem map_id_of_pointwise (f : FileQueueItem → FileQueueItem)
    (h : ∀ x, (f x).id = x.id) (q : List FileQueueItem) :
    (q.map f).map (fun x => x.id) = q.map (fun x => x.id) := by
  rw [List.map_map]
  congr 1
  funext x
  exact h x

theorem map_id_filter (i : Str) (q : List FileQueueItem) :
    ((q.filter (fun item => item.id ≠ i)).map (fun x => x.id)) =
      ((q.map (fun x => x.id)).filter (fun v => decide (v ≠ i))) := by
  induction q with
  | nil => rfl
  | cons x rest ih =>
    by_cases hx : x.id = i
    · simp only [List.filter_cons, List.map_cons, hx]
      simpa using ih
    · simp only [List.filter_cons, List.map_cons]
      simpa [hx] using ih

theorem queueIds_cases (op : Op) (s : AppState) :
    ((applyOp op s).queue.map (fun x => x.id) = s.queue.map (fun x => x.id)) ∨
    (∃ i : Str, op = .removeIt i ∧
      (applyOp op s).queue.map (fun x => x.id) =
        (s.queue.map (fun x => x.id)).filter (fun v => decide (v ≠ i))) ∨
    (∃ (gen : Nat → Str) (files : List JsFile), op = .ingest gen files ∧
      (applyOp op s).queue.map (fun x => x.id) =
        s.queue.map (fun x => x.id) ++
          (acceptedItems gen s files).map (fun x => x.id)) := by
  cases op with
  | recompute =>
    exact Or.inl (by simp [applyOp, recomputePreviews, recomputeAux_map_id])
  | ingest gen files =>
    refine Or.inr (Or.inr ⟨gen, files, rfl, ?_⟩)
    rw [applyOp]
    conv_lhs => rw [show (processFiles gen files s).queue =
      s.queue ++ acceptedItems gen s files from processFiles_queue gen files s]
    simp
  | commitRename c =>
    refine Or.inl ?_
    cases c with
    | false => simp [applyOp, moveToStage2]
    | true =>
      simp only [applyOp, moveToStage2, Bool.not_true]
      refine map_id_of_pointwise _ (fun x => ?_) s.queue
      by_cases hx : x.stage = 1 <;> simp [hx]
  | commitExport c =>
    refine Or.inl ?_
    rw [applyOp, moveToStage3]
    by_cases h : hasIncomplete s.queue && !c
    · rw [if_pos h]
    · rw [if_neg h]
      refine map_id_of_pointwise _ (fun x => ?_) s.queue
      by_cases hx : x.stage = 2 <;> simp [hx]
  | setTemp i v =>
    refine Or.inl ?_
    simp only [applyOp, updateTemperature]
    refine map_id_of_pointwise _ (fun x => ?_) s.queue
    by_cases hx : x.id = i <;> simp [hx]
  | removeIt i =>
    refine Or.inr (Or.inl ⟨i, rfl, ?_⟩)
    simp only [applyOp, removeItem]
    exact map_id_filter i s.queue
  | setPrefixStr p => exact Or.inl (by simp [applyOp])
  | setStart n => exact Or.inl (by simp [applyOp])
  | setFilterSuffix sfx => exact Or.inl (by simp [applyOp])
  | setOnlyFilter b => exact Or.inl (by simp [applyOp])

/-! ### Concrete fixtures for scenarios, witnesses and counterexamples -/

/-- A jpeg file at the top level. -/
def fileA : JsFile :=
  { name := "a.jpg".toList, mimeType := "image/jpeg".toList,
    relativePath := "a.jpg".toList }

/-- A png file at the top level. -/
def fileB : JsFile :=
  { name := "b.png".toList, mimeType := "image/png".toList,
    relativePath := "b.png".toList }

/-- A webp file at the top level. -/
def fileC : JsFile :=
  { name := "c.webp".toList, mimeType := "image/webp".toList,
    relativePath := "c.webp".toList }

/-- A second jpeg file, for the follow-up batch. -/
def fileD : JsFile :=
  { name := "d.jpg".toList, mimeType := "image/jpeg".toList,
    relativePath := "d.jpg".toList }

/-- A second png file, for the follow-up batch. -/
def fileE : JsFile :=
  { name := "e.png".toList, mimeType := "image/png".toList,
    relativePath := "e.png".toList }

/-- A jpeg inside a folder whose name ends with the filter suffix. -/
def fileG1 : JsFile :=
  { name := "a.jpg".toList, mimeType := "image/jpeg".toList,
    relativePath := "siteA-1/a.jpg".toList }

/-- A jpeg inside a folder whose name does not end with the filter suffix. -/
def fileG2 : JsFile :=
  { name := "b.jpg".toList, mimeType := "image/jpeg".toList,
    relativePath := "siteA-2/b.jpg".toList }

/-- A jpeg inside another folder whose name ends with the filter suffix. -/
def fileG3 : JsFile :=
  { name := "c.jpg".toList, mimeType := "image/jpeg".toList,
    relativePath := "siteB-1/c.jpg".toList }

/-- An id generator producing pairwise distinct ids of one shape. -/
def genA : Nat → Str := fun k => 'a' :: repr10 k

/-- An id generator producing pairwise distinct ids of another shape. -/
def genB : Nat → Str := fun k => 'b' :: repr10 k

/-- An id generator that always returns the same value, one possible
behaviour of a random generator. -/
def genConst : Nat → Str := fun _ => "x".toList

/-- Starting state of the sequence-continuity scenario: empty queue, prefix
01-, start index five, folder filter off. -/
def stateStart : AppState :=
  { queue := [], prefixStr := "01-".toList, startIndex := 5,
    filterSuffix := "-1".toList, onlyFilter := false }

/-- State after ingesting three files, recomputing previews and committing
the rename. -/
def c1s1 : AppState :=
  moveToStage2 true (recomputePreviews (processFiles genA [fileA, fileB, fileC] stateStart))

/-- State after ingesting two further files into the committed state,
recomputing previews and committing the rename again. -/
def c1s2 : AppState :=
  moveToStage2 true (recomputePreviews (processFiles genB [fileD, fileE] (recomputePreviews c1s1)))

/-- Empty-queue state with the folder filter on and suffix -1. -/
def stateFilter : AppState :=
  { queue := [], prefixStr := "01-".toList, startIndex := 1,
    filterSuffix := "-1".toList, onlyFilter := true }

/-- A stage-one item with a preview name, for witnesses. -/
def itemX : FileQueueItem :=
  { id := "x".toList, file := fileA, originalName := "a.jpg".toList,
    folderName := "Root".toList, stage := 1, status := .idle,
    previewName := some "p.jpg".toList }

/-- A one-item state containing the stage-one witness item. -/
def stateX : AppState :=
  { queue := [itemX], prefixStr := "01-".toList, startIndex := 5,
    filterSuffix := [], onlyFilter := false }

/-- A stage-two item with a frozen name, for witnesses. -/
def itemW : FileQueueItem :=
  { id := "w".toList, file := fileA, originalName := "a.jpg".toList,
    folderName := "Root".toList, stage := 2, status := .idle,
    newName := some "01-001.jpg".toList }

/-- A one-item state containing the stage-two witness item. -/
def stateW : AppState :=
  { queue := [itemW], prefixStr := "01-".toList, startIndex := 2,
    filterSuffix := [], onlyFilter := false }

/-- A stage-two item without a temperature, for the export-commit witness. -/
def itemM : FileQueueItem :=
  { id := "m".toList, file := fileA, originalName := "a.jpg".toList,
    folderName := "Root".toList, stage := 2, status := .idle,
    temperature := none, newName := some "01-001.jpg".toList }

/-- A one-item state containing the unannotated stage-two item. -/
def stateM : AppState :=
  { queue := [itemM], prefixStr := "01-".toList, startIndex := 2,
    filterSuffix := [], onlyFilter := false }

/-- An export-stage item whose newName is present but empty, the input on
which truthiness skipping shows. -/
def itemEmptyName : FileQueueItem :=
  { id := "e1".toList, file := fileA, originalName := "a.jpg".toList,
    folderName := "Root".toList, stage := 3, status := .success,
    temperature := some "21.0".toList, newName := some [] }

/-- An export-stage item whose temperature is present but empty. -/
def itemEmptyTemp : FileQueueItem :=
  { id := "e2".toList, file := fileB, originalName := "b.png".toList,
    folderName := "Root".toList, stage := 3, status := .idle,
    temperature := some [], newName := some "01-002.png".toList }

/-- An export-stage item with a temperature, for the manifest round trip. -/
def itemR1 : FileQueueItem :=
  { id := "r1".toList, file := fileA, originalName := "a.jpg".toList,
    folderName := "Root".toList, stage := 3, status := .success,
    temperature := some "23.5".toList, newName := some "01-001.jpg".toList }

/-- An export-stage item without a temperature, for the manifest round
trip. -/
def itemR2 : FileQueueItem :=
  { id := "r2".toList, file := fileB, originalName := "b.png".toList,
    folderName := "Root".toList, stage := 3, status := .idle,
    temperature := none, newName := some "01-002.png".toList }

/-- A fresh stage-one item without a preview, as ingestion creates them. -/
def itemT : FileQueueItem :=
  { id := "t".toList, file := fileA, originalName := "a.jpg".toList,
    folderName := "Root".toList, stage := 1, status := .idle }

/-- A one-item state containing the fresh stage-one item. -/
def stateT : AppState :=
  { queue := [itemT], prefixStr := "01-".toList, startIndex := 5,
    filterSuffix := [], onlyFilter := false }

/-! ### The claims -/

/-- C1: committing the rename sets, for every stage-one item, newName to its
current previewName, moves it to stage two, and advances the start index by
exactly the number of stage-one items; with start index 5 and prefix 01-,
committing three items yields 01-005, 01-006, 01-007 with per-item
extensions, and a subsequent ingest-plus-commit of two more items yields
01-008 and 01-009, the sequence continuing across batches. -/
theorem claim1_commit_freezes_and_advances :
    (∀ s : AppState,
      (moveToStage2 true s).startIndex =
        s.startIndex + ((s.queue.filter (fun i => i.stage = 1)).length) ∧
      ∀ (i : Nat) (x : FileQueueItem), s.queue[i]? = some x →
        ((x.stage = 1 → (moveToStage2 true s).queue[i]? =
            some { x with stage := 2, newName := x.previewName,
                          status := .idle }) ∧
         (x.stage ≠ 1 → (moveToStage2 true s).queue[i]? = some x))) ∧
    (c1s1.queue.map (fun x => x.newName) =
        [some "01-005.jpg".toList, some "01-006.png".toList,
         some "01-007.webp".toList] ∧
     c1s1.startIndex = 8 ∧
     c1s2.queue.map (fun x => x.newName) =
        [some "01-005.jpg".toList, some "01-006.png".toList,
         some "01-007.webp".toList, some "01-008.jpg".toList,
         some "01-009.png".toList] ∧
     c1s2.startIndex = 10) := by
  constructor
  · intro s
    constructor
    · simp [moveToStage2]
    · intro i x hx
      constructor
      · intro hstage
        simp [moveToStage2, List.getElem?_map, hx, hstage]
      · intro hstage
        simp [moveToStage2, List.getElem?_map, hx, hstage]
  · exact ⟨by decide, by decide, by decide, by decide⟩

/-- Witness for C1 at a concrete one-item state. -/
theorem claim1_witness :
    (moveToStage2 true stateX).queue[0]? =
      some { itemX with stage := 2, newName := itemX.previewName,
                        status := .idle } := by
  have h := (claim1_commit_freezes_and_advances.1 stateX).2 0 itemX (by decide)
  exact h.1 (by decide)

/-- Whether an operation leaves the given item in the queue: every
operation does, except removal of exactly this id. -/
def opKeeps (x : FileQueueItem) : Op → Prop
  | .removeIt i => i ≠ x.id
  | _ => True

/-- C2: once an item is at stage two or beyond, no operation changes its
newName: some item with the same id, the same newName, and still at stage
at least two remains in the queue after recomputation, ingestion, either
commit, a temperature edit, removal of another item, or any configuration
change. -/
theorem claim2_freeze_invariant :
    ∀ (op : Op) (s : AppState) (x : FileQueueItem),
    x ∈ s.queue → 2 ≤ x.stage → opKeeps x op →
    ∃ y ∈ (applyOp op s).queue,
      y.id = x.id ∧ y.newName = x.newName ∧ 2 ≤ y.stage := by
  intro op s x hx hs hk
  cases op with
  | recompute =>
    refine ⟨x, ?_, rfl, rfl, hs⟩
    simp only [applyOp, recomputePreviews]
    exact recomputeAux_mem_of_ne _ s.queue _ x hx (by omega)
  | ingest gen files =>
    refine ⟨x, ?_, rfl, rfl, hs⟩
    rw [applyOp, processFiles_queue]
    exact List.mem_append_left _ hx
  | commitRename c =>
    cases c with
    | false => exact ⟨x, by simpa [applyOp, moveToStage2] using hx, rfl, rfl, hs⟩
    | true =>
      refine ⟨x, ?_, rfl, rfl, hs⟩
      simp only [applyOp, moveToStage2, Bool.not_true]
      refine List.mem_map.mpr ⟨x, hx, ?_⟩
      have : ¬ x.stage = 1 := by omega
      simp [this]
  | commitExport c =>
    rw [applyOp, moveToStage3]
    by_cases h : hasIncomplete s.queue && !c
    · rw [if_pos h]
      exact ⟨x, hx, rfl, rfl, hs⟩
    · rw [if_neg h]
      by_cases h2 : x.stage = 2
      · refine ⟨{ x with stage := 3 }, ?_, rfl, rfl, ?_⟩
        · refine List.mem_map.mpr ⟨x, hx, ?_⟩
          simp [h2]
        · show (2 : Nat) ≤ 3
          omega
      · refine ⟨x, ?_, rfl, rfl, hs⟩
        refine List.mem_map.mpr ⟨x, hx, ?_⟩
        simp [h2]
  | setTemp i v =>
    simp only [applyOp, updateTemperature]
    by_cases hid : x.id = i
    · refine ⟨{ x with
          temperature := some v
          status := if v.isEmpty then .idle else .success }, ?_, rfl, rfl, hs⟩
      refine List.mem_map.mpr ⟨x, hx, ?_⟩
      simp [hid]
    · refine ⟨x, ?_, rfl, rfl, hs⟩
      refine List.mem_map.mpr ⟨x, hx, ?_⟩
      simp [hid]
  | removeIt i =>
    refine ⟨x, ?_, rfl, rfl, hs⟩
    simp only [applyOp, removeItem]
    refine List.mem_filter.mpr ⟨hx, ?_⟩
    have : i ≠ x.id := hk
    simp [this.symm]
  | setPrefixStr p => exact ⟨x, hx, rfl, rfl, hs⟩
  | setStart n => exact ⟨x, hx, rfl, rfl, hs⟩
  | setFilterSuffix sfx => exact ⟨x, hx, rfl, rfl, hs⟩
  | setOnlyFilter b => exact ⟨x, hx, rfl, rfl, hs⟩

/-- Witness for C2: a temperature edit on a one-item stage-two state. -/
theorem claim2_witness :
    ∃ y ∈ (applyOp (.setTemp "w".toList "5".toList) stateW).queue,
      y.id = itemW.id ∧ y.newName = itemW.newName ∧ 2 ≤ y.stage :=
  claim2_freeze_invariant _ stateW itemW (by decide) (by decide) trivial

/-- C3: preview recomputation is idempotent, changes no configuration value
and no queue length, and pointwise it maps each stage-one item to the same
item with only previewName replaced by prefix, padded cursor and extension,
the cursor being the start index plus the number of earlier stage-one
items, while every non-stage-one item is untouched. -/
theorem claim3_previews_pure :
    (∀ s : AppState,
      recomputePreviews (recomputePreviews s) = recomputePreviews s) ∧
    (∀ s : AppState,
      (recomputePreviews s).startIndex = s.startIndex ∧
      (recomputePreviews s).prefixStr = s.prefixStr ∧
      (recomputePreviews s).filterSuffix = s.filterSuffix ∧
      (recomputePreviews s).onlyFilter = s.onlyFilter ∧
      (recomputePreviews s).queue.length = s.queue.length) ∧
    (∀ (s : AppState) (i : Nat) (x : FileQueueItem), s.queue[i]? = some x →
      ((x.stage = 1 → (recomputePreviews s).queue[i]? =
          some { x with previewName := some (mkName s.prefixStr
            (s.startIndex +
              ((s.queue.take i).filter (fun y => y.stage = 1)).length)
            (getExtension x.originalName)) }) ∧
       (x.stage ≠ 1 → (recomputePreviews s).queue[i]? = some x))) := by
  refine ⟨?_, ?_, ?_⟩
  · intro s
    simp [recomputePreviews, recomputeAux_idem]
  · intro s
    exact ⟨rfl, rfl, rfl, rfl, recomputeAux_length _ s.queue s.startIndex⟩
  · intro s i x hx
    constructor
    · intro hstage
      rw [recomputePreviews, recomputeAux_getElem?, hx]
      simp [hstage]
    · intro hstage
      rw [recomputePreviews, recomputeAux_getElem?, hx]
      simp [hstage]

/-- Witness for C3 at a concrete one-item state. -/
theorem claim3_witness :
    (recomputePreviews stateT).queue[0]? =
      some { itemT with previewName := some (mkName stateT.prefixStr
        (stateT.startIndex +
          ((stateT.queue.take 0).filter (fun y => y.stage = 1)).length)
        (getExtension itemT.originalName)) } := by
  have h := claim3_previews_pure.2.2 stateT 0 itemT (by decide)
  exact h.1 (by decide)

/-- C4 counterexample: on the name .gitignore the code returns the empty
extension, while the substring after the final dot is gitignore, so the
derived extension does not always equal the substring after the final
dot. -/
theorem claim4_counterexample :
    getExtension ".gitignore".toList = [] ∧
    specExtension ".gitignore".toList = "gitignore".toList ∧
    getExtension ".gitignore".toList ≠ specExtension ".gitignore".toList := by
  have h1 : lastDotIdx ".gitignore".toList = 0 := by decide
  have h2 : getExtension ".gitignore".toList = [] := by
    rw [getExtension, h1]
    have h3 : uint32 ((0 : Int) - 1) + 2 = 2 ^ 32 + 1 := by decide
    rw [h3]
    exact List.drop_eq_nil_of_le (by decide)
  refine ⟨h2, by decide, ?_⟩
  rw [h2]
  decide

/-- C4 amended: for a name of JavaScript-representable length, the derived
extension equals the substring after the final dot whenever that dot sits
at index at least one; a name with no dot, or whose last dot is the leading
character, yields the empty extension, and extraction is total either
way. -/
theorem claim4_amended (f : Str) (hlen : f.length ≤ 2 ^ 32) :
    (1 ≤ lastDotIdx f → getExtension f = specExtension f) ∧
    (lastDotIdx f < 1 → getExtension f = []) := by
  rcases getExtension_cases f hlen with ⟨hlt, he⟩ | ⟨hge, he⟩
  · exact ⟨fun h => absurd h (by omega), fun _ => he⟩
  · exact ⟨fun _ => he, fun h => absurd hge (by omega)⟩

/-- Witness for the amended C4 at a concrete two-dot name. -/
theorem claim4_witness :
    getExtension "a.tar.gz".toList = specExtension "a.tar.gz".toList :=
  (claim4_amended "a.tar.gz".toList (by decide)).1 (by decide)

/-- C5 counterexample: an item whose newName is present but empty is
skipped entirely even though it does not lack an assigned name, and an item
whose temperature is present but empty is rendered as the token N/A rather
than as its annotation value. -/
theorem claim5_counterexample :
    (itemEmptyName.newName.isSome = true ∧
     (generateZipPackage [itemEmptyName]).entries = [] ∧
     (generateZipPackage [itemEmptyName]).manifestContent = csvHeader) ∧
    (itemEmptyTemp.temperature = some [] ∧
     (generateZipPackage [itemEmptyTemp]).manifestContent =
       csvHeader ++ "\"b.png\",\"01-002.png\",\"Root\",\"N/A\"\n".toList) := by
  exact ⟨⟨by decide, by decide, by decide⟩, ⟨by decide, by decide⟩⟩

/-- C5 amended: the assembler skips exactly the items whose newName is
absent or empty; every other item contributes, in item order, one zip entry
at exactly its newName and one manifest row of the four quoted fields with
the token N/A standing in for an absent or empty temperature; the manifest
entry carries its fixed name and starts with the header; on the two
round-trip items with temperature 23.5 and absent temperature the manifest
body is exactly two rows, the second ending in the literal N/A field. -/
theorem claim5_amended :
    (∀ items : List FileQueueItem,
      (generateZipPackage items).entries = items.filterMap entryOf ∧
      (generateZipPackage items).manifestName = "data_summary.csv".toList ∧
      (generateZipPackage items).manifestContent = csvHeader ++ rowsOf items) ∧
    ((generateZipPackage [itemR1, itemR2]).entries =
        [("01-001.jpg".toList, fileA), ("01-002.png".toList, fileB)] ∧
     (generateZipPackage [itemR1, itemR2]).manifestContent =
       ("Original Name,New Name,Folder,Temperature\n" ++
        "\"a.jpg\",\"01-001.jpg\",\"Root\",\"23.5\"\n" ++
        "\"b.png\",\"01-002.png\",\"Root\",\"N/A\"\n").toList) := by
  constructor
  · intro items
    rw [generateZipPackage_eq]
    exact ⟨rfl, rfl, rfl⟩
  · exact ⟨by decide, by decide⟩

/-- C6: committing to export, when either nothing is incomplete or the
caller confirmed, moves every stage-two item to stage three regardless of
its annotation and leaves every stage-one and stage-three item, the queue
length and the configuration unchanged. -/
theorem claim6_commit_export :
    ∀ (s : AppState) (c : Bool),
    (hasIncomplete s.queue = false ∨ c = true) →
    (moveToStage3 c s).startIndex = s.startIndex ∧
    (moveToStage3 c s).prefixStr = s.prefixStr ∧
    (moveToStage3 c s).queue.length = s.queue.length ∧
    ∀ (i : Nat) (x : FileQueueItem), s.queue[i]? = some x →
      ((x.stage = 2 →
          (moveToStage3 c s).queue[i]? = some { x with stage := 3 }) ∧
       (x.stage ≠ 2 → (moveToStage3 c s).queue[i]? = some x)) := by
  intro s c hc
  have hcond : (hasIncomplete s.queue && !c) = false := by
    rcases hc with h | h <;> simp [h]
  rw [moveToStage3, hcond]
  refine ⟨rfl, rfl, by simp, ?_⟩
  intro i x hx
  constructor
  · intro hstage
    simp [Bool.false_eq_true, if_false, List.getElem?_map, hx, hstage]
  · intro hstage
    simp [Bool.false_eq_true, if_false, List.getElem?_map, hx, hstage]

/-- Witness for C6: a confirmed commit on a one-item state whose stage-two
item has no temperature still transitions it. -/
theorem claim6_witness :
    (moveToStage3 true stateM).queue[0]? = some { itemM with stage := 3 } := by
  have h := claim6_commit_export stateM true (Or.inr rfl)
  exact (h.2.2.2 0 itemM (by decide)).1 (by decide)

/-- C7: the queue is one ordered backing sequence: every operation either
leaves the id sequence exactly unchanged, is a removal and deletes from the
id sequence exactly the matching ids, or is an ingestion and appends the
accepted ids at the end of the unchanged old id sequence — so the relative
order of all surviving items is preserved by every operation; moreover
ingestion appends exactly the accepted items at the end in input order, and
every per-stage view is an order-preserving sublist of the backing
queue. -/
theorem claim7_order_preserved :
    (∀ (op : Op) (s : AppState),
      ((applyOp op s).queue.map (fun x => x.id) =
        s.queue.map (fun x => x.id)) ∨
      (∃ i : Str, op = .removeIt i ∧
        (applyOp op s).queue.map (fun x => x.id) =
          (s.queue.map (fun x => x.id)).filter (fun v => decide (v ≠ i))) ∨
      (∃ (gen : Nat → Str) (files : List JsFile), op = .ingest gen files ∧
        (applyOp op s).queue.map (fun x => x.id) =
          s.queue.map (fun x => x.id) ++
            (acceptedItems gen s files).map (fun x => x.id))) ∧
    (∀ (gen : Nat → Str) (files : List JsFile) (s : AppState),
      (processFiles gen files s).queue = s.queue ++ acceptedItems gen s files) ∧
    (∀ (n : Nat) (q : List FileQueueItem), (stageView n q).Sublist q) :=
  ⟨queueIds_cases, processFiles_queue, fun _ q => List.filter_sublist q⟩

/-- C8: with the folder filter enabled, ingestion appends exactly the
otherwise-valid items whose folder name ends with the suffix; on the three
folders siteA-1, siteA-2 and siteB-1 with suffix -1 exactly the first and
third survive, in order. -/
theorem claim8_folder_filter :
    (∀ (gen : Nat → Str) (files : List JsFile) (s : AppState),
      s.onlyFilter = true →
      (processFiles gen files s).queue = s.queue ++
        (newItemsOf gen files).filter
          (fun f => s.filterSuffix.isSuffixOf f.folderName)) ∧
    ((processFiles genA [fileG1, fileG2, fileG3] stateFilter).queue.map
        (fun x => (x.folderName, x.originalName)) =
      [("siteA-1".toList, "a.jpg".toList),
       ("siteB-1".toList, "c.jpg".toList)]) := by
  constructor
  · intro gen files s h
    rw [processFiles_queue, acceptedItems, h]
    simp
  · decide

/-- Witness for C8 on the concrete filter-enabled state. -/
theorem claim8_witness :
    (processFiles genA [fileG1] stateFilter).queue = stateFilter.queue ++
      (newItemsOf genA [fileG1]).filter
        (fun f => stateFilter.filterSuffix.isSuffixOf f.folderName) :=
  claim8_folder_filter.1 genA [fileG1] stateFilter rfl

/-- C9 counterexample: under a generator that repeats a value, one possible
behaviour of the random id source, ingesting two files yields two queue
items with the same id, so uniqueness does not hold under every behaviour
of the id generator. -/
theorem claim9_counterexample :
    ((processFiles genConst [fileA, fileB] stateStart).queue.map
        (fun x => x.id)) = ["x".toList, "x".toList] ∧
    ¬ ((processFiles genConst [fileA, fileB] stateStart).queue.map
        (fun x => x.id)).Nodup := by
  exact ⟨by decide, by decide⟩

/-- Freshness of an operation for a state: ingestion must draw ids that are
pairwise distinct and absent from the queue; every other operation is
unconditionally fresh. -/
def freshFor : Op → AppState → Prop
  | .ingest gen files, s =>
    ((acceptedItems gen s files).map (fun x => x.id)).Nodup ∧
    ∀ i ∈ (acceptedItems gen s files).map (fun x => x.id),
      i ∉ s.queue.map (fun x => x.id)
  | _, _ => True

/-- C9 amended: ids are stable, in that every operation either leaves the
id sequence exactly unchanged, is a removal and deletes exactly the
matching ids, or is an ingestion and appends the generated ids after the
unchanged old id sequence — no operation ever rewrites the id of a
surviving item — and id uniqueness is preserved by every operation provided
each ingestion draws ids that are pairwise distinct and not already in the
queue. -/
theorem claim9_amended :
    (∀ (op : Op) (s : AppState),
      ((applyOp op s).queue.map (fun x => x.id) =
        s.queue.map (fun x => x.id)) ∨
      (∃ i : Str, op = .removeIt i ∧
        (applyOp op s).queue.map (fun x => x.id) =
          (s.queue.map (fun x => x.id)).filter (fun v => decide (v ≠ i))) ∨
      (∃ (gen : Nat → Str) (files : List JsFile), op = .ingest gen files ∧
        (applyOp op s).queue.map (fun x => x.id) =
          s.queue.map (fun x => x.id) ++
            (acceptedItems gen s files).map (fun x => x.id))) ∧
    (∀ (op : Op) (s : AppState),
      (s.queue.map (fun x => x.id)).Nodup → freshFor op s →
      ((applyOp op s).queue.map (fun x => x.id)).Nodup) := by
  refine ⟨queueIds_cases, ?_⟩
  intro op s hnd hfresh
  rcases queueIds_cases op s with h | ⟨i, hop, h⟩ | ⟨gen, files, hop, h⟩
  · rw [h]; exact hnd
  · rw [h]; exact hnd.filter _
  · rw [h]
    subst hop
    obtain ⟨h1, h2⟩ := hfresh
    rw [List.nodup_append]
    exact ⟨hnd, h1, fun a ha hb => h2 a hb ha⟩

/-- Witness for the amended C9: a fresh two-file ingestion into the empty
starting state keeps the id sequence duplicate-free. -/
theorem claim9_witness :
    ((applyOp (.ingest genA [fileA, fileB]) stateStart).queue.map
      (fun x => x.id)).Nodup := by
  refine claim9_amended.2 _ stateStart (by decide) ?_
  exact ⟨by decide, by decide⟩

/-- C10: after a recomputation the preview names of the stage-one items are
pairwise distinct; a confirmed rename commit hands each stage-one item
exactly its preview name as the frozen newName at stage two; an extracted
extension of a name of JavaScript-representable length never contains a
dot; and a composed name determines its sequence number and extension, so
no two items frozen in the same commit share an assigned name. -/
theorem claim10_distinct_within_commit :
    (∀ s : AppState,
      (((recomputePreviews s).queue.filter (fun x => x.stage = 1)).map
          (fun x => x.previewName)).Pairwise (fun a b => a ≠ b)) ∧
    (∀ (s : AppState) (i : Nat) (x : FileQueueItem),
      (recomputePreviews s).queue[i]? = some x → x.stage = 1 →
      ∃ y : FileQueueItem,
        (moveToStage2 true (recomputePreviews s)).queue[i]? = some y ∧
        y.newName = x.previewName ∧ y.stage = 2) ∧
    (∀ f : Str, f.length ≤ 2 ^ 32 → '.' ∉ getExtension f) ∧
    (∀ (p e1 e2 : Str) (a b : Nat),
      mkName p a e1 = mkName p b e2 → a = b ∧ e1 = e2) := by
  refine ⟨?_, ?_, dot_not_mem_getExtension, fun p e1 e2 a b h => mkName_inj p e1 e2 a b h⟩
  · intro s
    simp only [recomputePreviews]
    rw [stage1Previews_recomputeAux]
    refine List.Pairwise.map some (fun a b hab => ?_)
      (namesFrom_pairwise s.prefixStr (extsOf s.queue) s.startIndex)
    simpa using hab
  · intro s i x hx hstage
    refine ⟨{ x with stage := 2, newName := x.previewName, status := .idle },
      ?_, rfl, rfl⟩
    simp [moveToStage2, List.getElem?_map, hx, hstage]

/-- Witness for C10: the one-item recomputed state commits its item with
the frozen preview name. -/
theorem claim10_witness :
    ∃ y : FileQueueItem,
      (moveToStage2 true (recomputePreviews stateT)).queue[0]? = some y ∧
      y.newName = ({ itemT with
        previewName := some "01-005.jpg".toList } : FileQueueItem).previewName ∧
      y.stage = 2 :=
  claim10_distinct_within_commit.2.1 stateT 0
    { itemT with previewName := some "01-005.jpg".toList } (by decide) (by decide)

end ThermoBatch
